import Mathlib

/-!
Verification of the Historical Court workflow agents
(`src/workflow_agents/agent.py`) against its design document.

The shared ADK session state is modelled as a partial map from field
names to values; a value written by the tools is either a string, a
list of strings, or Python `None`.  The tools `update_research_data`,
`set_state_value` and the path derivation of `write_verdict_file` are
translated directly from the source.  The ADK `LoopAgent` is not part
of this repository; its iteration protocol is modelled from the spec.
-/

namespace HistoricalCourt

/-- A value held by a field of the ADK session state: the tools in
`agent.py` branch on string vs list vs `None`. -/
inductive Val where
  | str (s : String)
  | lst (l : List String)
  | vnone
deriving DecidableEq, Repr

/-- The session state: a partial map from field names to values
(`none` means the field is absent, as with `dict.get` misses). -/
def State : Type := String → Option Val

/-- The empty session state (fresh workflow run). -/
def emptyState : State := fun _ => none

/-- `tool_context.state.get(field, "")` followed by the `None` guard and
the `"\n".join` list normalization in `update_research_data`: the
current value of a field read back as a single string. -/
def normVal : Option Val → String
  | none => ""
  | some .vnone => ""
  | some (.str s) => s
  | some (.lst l) => String.intercalate "\n" l

/-- The spec's `get(field)`: the normalized read model of the store. -/
def get (s : State) (field : String) : String := normVal (s field)

/-- Result dictionary returned by the state tools. -/
structure ToolResult where
  status : String
deriving DecidableEq, Repr

/-- The fixed separator of `update_research_data`
(`f"{current_data}\n\n---\n{new_info}"`). -/
def SEP : String := "\n\n---\n"

/-- `update_research_data(tool_context, field, new_info)`: reads the
current value (absent and `None` as `""`, lists joined by `"\n"`),
concatenates the separator and the new text, writes the result back
as a string, and returns `{"status": "success"}`. -/
def update_research_data (s : State) (field : String) (new_info : String) :
    State × ToolResult :=
  let current_data := normVal (s field)
  let updated_data := current_data ++ SEP ++ new_info
  (fun k => if k = field then some (.str updated_data) else s k, ⟨"success"⟩)

/-- `set_state_value(tool_context, field, value)`: overwrites the field
with the given string and returns `{"status": "success"}`. -/
def set_state_value (s : State) (field : String) (value : String) :
    State × ToolResult :=
  (fun k => if k = field then some (.str value) else s k, ⟨"success"⟩)

/-- A whole sequence of `update_research_data` calls to one field,
in call order. -/
def appendAll (s : State) (field : String) (ts : List String) : State :=
  ts.foldl (fun st t => (update_research_data st field t).1) s

/-- Terminal outcome of a bounded conditional loop. -/
inductive LoopOutcome where
  | Terminated
  | Exhausted
deriving DecidableEq, Repr

/-- Modelled from the spec: the ADK `LoopAgent` used by `trial_loop` is
not part of this repository; this is §4.5's `ConditionalLoopComposer`
state machine.  Starting in `Running(iteration)`, it executes the body
once per step; `signals n` says whether the body of iteration `n`
raises the termination signal.  It returns the number of body
executions and the terminal state: `Terminated` if the body signalled,
`Exhausted` when `iteration + 1 >= max_iterations` is reached. -/
def loopRun (signals : Nat → Bool) (maxIter : Nat) (iter : Nat) :
    Nat × LoopOutcome :=
  if signals iter then (1, .Terminated)
  else if maxIter ≤ iter + 1 then (1, .Exhausted)
  else
    let r := loopRun signals maxIter (iter + 1)
    (r.1 + 1, r.2)
termination_by maxIter - iter

/-- The workflow tree of ADK composite agents: a leaf agent, or a
`SequentialAgent`, `ParallelAgent` or `LoopAgent` with its children in
order (`LoopAgent` also carries its `max_iterations`). -/
inductive AgentTree where
  | leaf (nm : String)
  | seqA (nm : String) (children : List AgentTree)
  | parA (nm : String) (children : List AgentTree)
  | loopA (nm : String) (maxIter : Nat) (children : List AgentTree)

/-- `admirer_agent`: researches positive achievements into `pos_data`. -/
def admirer_agent : AgentTree := .leaf "admirer_agent"

/-- `critic_agent`: researches controversies into `neg_data`. -/
def critic_agent : AgentTree := .leaf "critic_agent"

/-- `judge_agent`: reviews the evidence and may call `exit_loop`. -/
def judge_agent : AgentTree := .leaf "judge_agent"

/-- `verdict_writer`: writes the final report via `write_verdict_file`. -/
def verdict_writer : AgentTree := .leaf "verdict_writer"

/-- `inquiry_agent`: seeds the `PROMPT` field via `set_state_value`. -/
def inquiry_agent : AgentTree := .leaf "inquiry_agent"

/-- `investigation_team = ParallelAgent(sub_agents=[admirer_agent,
critic_agent])`. -/
def investigation_team : AgentTree :=
  .parA "investigation_team" [admirer_agent, critic_agent]

/-- `trial_loop = LoopAgent(sub_agents=[investigation_team,
judge_agent], max_iterations=3)`. -/
def trial_loop : AgentTree :=
  .loopA "trial_loop" 3 [investigation_team, judge_agent]

/-- `root_agent = SequentialAgent(sub_agents=[inquiry_agent, trial_loop,
verdict_writer])`. -/
def root_agent : AgentTree :=
  .seqA "historical_court_system" [inquiry_agent, trial_loop, verdict_writer]

/-- The `max_iterations` bound of a loop node. -/
def maxIterOf : AgentTree → Nat
  | .loopA _ n _ => n
  | _ => 0

/-- The character class of `re.sub(r'[^a-zA-Z0-9]', '_', topic)`:
each character that is not an ASCII letter or digit becomes `'_'`. -/
def toSafeChar (c : Char) : Char := if c.isAlphanum then c else '_'

/-- `re.sub(r'_+', '_', ...)`: each maximal run of underscores is
collapsed to a single underscore (an underscore immediately followed by
another underscore is dropped). -/
def collapseU : List Char → List Char
  | [] => []
  | [c] => [c]
  | c :: d :: rest =>
    if c = '_' ∧ d = '_' then collapseU (d :: rest)
    else c :: collapseU (d :: rest)

/-- Python's `.strip('_')`: drop underscores from both ends. -/
def stripU (l : List Char) : List Char :=
  ((l.dropWhile (· = '_')).reverse.dropWhile (· = '_')).reverse

/-- The `clean_name` computed inside `write_verdict_file`: substitute
non-alphanumerics by `'_'`, collapse runs of `'_'`, strip `'_'` from
both ends. -/
def cleanName (topic : String) : String :=
  ⟨stripU (collapseU (topic.data.map toSafeChar))⟩

/-- The path `os.path.join("court_records", f"{clean_name}.txt")`
derived in `write_verdict_file` for a given topic label. -/
def verdictPath (topic : String) : String :=
  "court_records" ++ "/" ++ (cleanName topic ++ ".txt")

/-- The label resolution of `write_verdict_file`:
`state.get("PROMPT", "unknown_subject")`, then `topic[-1]` when the
value is a list.  `none` models the `IndexError`/`TypeError` the Python
code raises when `PROMPT` is an empty list or holds `None`. -/
def resolveTopic (s : State) : Option String :=
  match s "PROMPT" with
  | none => some "unknown_subject"
  | some (.str t) => some t
  | some (.lst l) => l.getLast?
  | some .vnone => none

/-- No two adjacent underscores anywhere in the character list. -/
def NoAdjU (l : List Char) : Prop :=
  List.Chain' (fun a b => ¬(a = '_' ∧ b = '_')) l

/-- Result dictionary of `write_verdict_file`. -/
structure FileResult where
  status : String
  file_path : String
deriving DecidableEq, Repr

/-- `write_verdict_file(tool_context, content)`: resolves the topic
label, derives the sanitized path under `court_records/`, writes the
content there (the filesystem write itself is outside the model) and
returns `{"status": "success", "file_path": path}`.  The state is not
mutated. -/
def write_verdict_file (s : State) (_content : String) :
    Option (State × FileResult) :=
  (resolveTopic s).map fun topic =>
    (s, ⟨"success", verdictPath topic⟩)

theorem foldl_append_str (l : List String) :
    ∀ x y : String, l.foldl (fun r s => r ++ s) (x ++ y) =
      x ++ l.foldl (fun r s => r ++ s) y := by
  induction l with
  | nil => intro x y; rfl
  | cons a l ih =>
      intro x y
      show l.foldl (fun r s => r ++ s) (x ++ y ++ a) = _
      rw [String.append_assoc, ih]
      rfl

theorem join_cons (a : String) (l : List String) :
    String.join (a :: l) = a ++ String.join l := by
  show l.foldl (fun r s => r ++ s) ("" ++ a) = a ++ String.join l
  have h1 : ("" : String) ++ a = a ++ "" := by
    rw [String.empty_append, String.append_empty]
  rw [h1, foldl_append_str]
  rfl

theorem update_research_data_field (s : State) (field t : String) :
    (update_research_data s field t).1 field =
      some (.str (normVal (s field) ++ SEP ++ t)) := by
  simp [update_research_data]

theorem appendAll_get (field : String) (ts : List String) :
    ∀ s : State, get (appendAll s field ts) field =
      get s field ++ String.join (ts.map (fun t => SEP ++ t)) := by
  induction ts with
  | nil => intro s; simp [appendAll, String.join, get]
  | cons t ts ih =>
      intro s
      have h : appendAll s field (t :: ts) =
          appendAll ((update_research_data s field t).1) field ts := rfl
      rw [h, ih]
      rw [List.map_cons, join_cons]
      simp only [get]
      rw [update_research_data_field s field t]
      show (normVal (s field) ++ SEP ++ t) ++ _ = _
      rw [String.append_assoc, String.append_assoc, String.append_assoc]

theorem dropWhile_head_not {α : Type} (p : α → Bool) :
    ∀ (l : List α) (a : α), (l.dropWhile p).head? = some a → p a = false := by
  intro l
  induction l with
  | nil => intro a h; simp at h
  | cons c rest ih =>
      intro a h
      rw [List.dropWhile_cons] at h
      cases hc : p c with
      | true => rw [hc] at h; simp at h; exact ih a h
      | false =>
          rw [hc] at h
          simp at h
          exact h ▸ hc

theorem dropWhile_getLast_or {α : Type} (p : α → Bool) (l : List α) :
    l.dropWhile p = [] ∨ (l.dropWhile p).getLast? = l.getLast? := by
  induction l with
  | nil => exact Or.inl rfl
  | cons c rest ih =>
      rw [List.dropWhile_cons]
      cases hc : p c with
      | true =>
          simp only [if_true]
          rcases ih with h | h
          · exact Or.inl h
          · cases rest with
            | nil => exact Or.inl rfl
            | cons d rs =>
                right
                rw [h, List.getLast?_cons_cons]
      | false => exact Or.inr (by simp)

theorem collapseU_head (l : List Char) : (collapseU l).head? = l.head? := by
  induction l with
  | nil => rfl
  | cons c rest ih =>
      cases rest with
      | nil => rfl
      | cons d rs =>
          by_cases h : c = '_' ∧ d = '_'
          · show (if c = '_' ∧ d = '_' then collapseU (d :: rs)
                else c :: collapseU (d :: rs)).head? = _
            rw [if_pos h, ih]
            rw [h.1, h.2]
            rfl
          · show (if c = '_' ∧ d = '_' then collapseU (d :: rs)
                else c :: collapseU (d :: rs)).head? = _
            rw [if_neg h]
            rfl

theorem collapseU_subset (l : List Char) : ∀ c ∈ collapseU l, c ∈ l := by
  induction l with
  | nil => intro c hc; exact absurd hc (List.not_mem_nil c)
  | cons c rest ih =>
      cases rest with
      | nil => intro d hd; exact hd
      | cons d rs =>
          intro e he
          by_cases h : c = '_' ∧ d = '_'
          · rw [show collapseU (c :: d :: rs) = collapseU (d :: rs)
              from if_pos h] at he
            exact List.mem_cons_of_mem _ (ih _ he)
          · rw [show collapseU (c :: d :: rs) = c :: collapseU (d :: rs)
              from if_neg h] at he
            rcases List.mem_cons.1 he with h1 | h1
            · simp [h1]
            · exact List.mem_cons_of_mem _ (ih _ h1)

theorem collapseU_chain (l : List Char) : NoAdjU (collapseU l) := by
  induction l with
  | nil => exact List.chain'_nil
  | cons c rest ih =>
      cases rest with
      | nil => exact List.chain'_singleton c
      | cons d rs =>
          by_cases h : c = '_' ∧ d = '_'
          · rw [show collapseU (c :: d :: rs) = collapseU (d :: rs)
              from if_pos h]
            exact ih
          · rw [NoAdjU, show collapseU (c :: d :: rs) =
              c :: collapseU (d :: rs) from if_neg h, List.chain'_cons']
            refine ⟨?_, ih⟩
            intro y hy
            rw [Option.mem_def, collapseU_head] at hy
            have hyd : y = d := by
              simp only [List.head?_cons, Option.some.injEq] at hy
              exact hy.symm
            rw [hyd]
            exact h

theorem noAdjU_reverse (l : List Char) (h : NoAdjU l) : NoAdjU l.reverse := by
  rw [NoAdjU, List.chain'_reverse]
  exact h.imp fun a b hab => fun hc => hab ⟨hc.2, hc.1⟩

theorem stripU_chain (l : List Char) (h : NoAdjU l) : NoAdjU (stripU l) := by
  have hA : NoAdjU (l.dropWhile (· = '_')) :=
    List.Chain'.suffix h (List.dropWhile_suffix _)
  have hArev := noAdjU_reverse _ hA
  have hB : NoAdjU ((l.dropWhile (· = '_')).reverse.dropWhile (· = '_')) :=
    List.Chain'.suffix hArev (List.dropWhile_suffix _)
  exact noAdjU_reverse _ hB

theorem stripU_subset (l : List Char) : ∀ c ∈ stripU l, c ∈ l := by
  intro c hc
  rw [stripU, List.mem_reverse] at hc
  have h1 := (List.dropWhile_sublist (p := (· = '_'))
    (l := (l.dropWhile (· = '_')).reverse)).subset hc
  rw [List.mem_reverse] at h1
  exact (List.dropWhile_sublist _).subset h1

theorem stripU_head (l : List Char) : (stripU l).head? ≠ some '_' := by
  rw [stripU, List.head?_reverse]
  rcases dropWhile_getLast_or (fun c => decide (c = '_'))
      (l.dropWhile (· = '_')).reverse with h | h
  · rw [h]; simp
  · rw [h, List.getLast?_reverse]
    intro hc
    have hnot := dropWhile_head_not _ l _ hc
    simp at hnot


/-- C1 counterexample: on an empty store, a single
`update_research_data` call appending `"A"` to field `"x"` stores
`"\n\n---\nA"`, with a leading separator — not `"A"` as claimed. -/
theorem c1_single_append_counterexample :
    get (update_research_data emptyState "x" "A").1 "x" = "\n\n---\nA" ∧
      get (update_research_data emptyState "x" "A").1 "x" ≠ "A" := by
  constructor <;> decide

/-- C1 (amended): after a sequence of `update_research_data` calls to
one field with texts `t1, ..., tn`, the final value of the field is the
normalized prior value followed by `"\n\n---\n" ++ ti` for each call in
order; in particular every append, including the first to an absent
field, prepends the separator before its text. -/
theorem c1_append_sequence_value (s : State) (field : String)
    (ts : List String) :
    get (appendAll s field ts) field =
      get s field ++ String.join (ts.map (fun t => SEP ++ t)) :=
  appendAll_get field ts s

/-- C3: `update_research_data` never fails on a read: it always returns
`{"status": "success"}`, and when the field is absent or holds `None`
the current value is treated as the empty string, so the stored value
is the separator followed by the new text. -/
theorem c3_absent_read_is_empty (s : State) (field t : String)
    (h : s field = none ∨ s field = some .vnone) :
    (update_research_data s field t).2 = ⟨"success"⟩ ∧
      (update_research_data s field t).1 field =
        some (.str ("" ++ SEP ++ t)) := by
  refine ⟨rfl, ?_⟩
  rw [update_research_data_field]
  rcases h with h | h <;> rw [h] <;> rfl

/-- C3 witness: concrete instance on the empty store. -/
theorem c3_absent_read_is_empty_witness :
    (emptyState "x" = none ∨ emptyState "x" = some .vnone) ∧
      ((update_research_data emptyState "x" "A").2 = ⟨"success"⟩ ∧
        (update_research_data emptyState "x" "A").1 "x" =
          some (.str ("" ++ SEP ++ "A"))) :=
  ⟨Or.inl rfl, c3_absent_read_is_empty emptyState "x" "A" (Or.inl rfl)⟩

/-- C4: when the current value of the field is a list `l`,
`update_research_data` first joins it with `"\n"` and stores that
string followed by the separator and the new text — always a string,
never a list. -/
theorem c4_list_normalized (s : State) (field t : String) (l : List String)
    (h : s field = some (.lst l)) :
    (update_research_data s field t).1 field =
      some (.str (String.intercalate "\n" l ++ SEP ++ t)) := by
  rw [update_research_data_field, h]
  rfl

/-- C4 witness: concrete two-element list. -/
theorem c4_list_normalized_witness :
    (fun k => if k = "f" then some (Val.lst ["a", "b"]) else none : State)
        "f" = some (.lst ["a", "b"]) ∧
      (update_research_data
          (fun k => if k = "f" then some (Val.lst ["a", "b"]) else none)
          "f" "c").1 "f" =
        some (.str (String.intercalate "\n" ["a", "b"] ++ SEP ++ "c")) :=
  ⟨by decide, c4_list_normalized _ "f" "c" ["a", "b"] (by decide)⟩

/-- C5: append is monotone — the normalized prior value of the field is
a prefix of the stored value: the new value is the prior one extended
by the separator and the new text. -/
theorem c5_append_monotone (s : State) (field t : String) :
    ∃ rest : String, (update_research_data s field t).1 field =
      some (.str (get s field ++ rest)) := by
  refine ⟨SEP ++ t, ?_⟩
  rw [update_research_data_field, String.append_assoc]
  rfl

/-- C6: `set_state_value` unconditionally replaces the field's value:
afterwards the field holds exactly the given string, whatever it held
before, and the call reports success. -/
theorem c6_overwrite (s : State) (field v : String) :
    (set_state_value s field v).1 field = some (.str v) ∧
      get (set_state_value s field v).1 field = v ∧
      (set_state_value s field v).2 = ⟨"success"⟩ := by
  refine ⟨?_, ?_, rfl⟩ <;> simp [set_state_value, get, normVal]

/-- C9: frame property — both state tools write only the entry named by
their `field` argument; every other key keeps its prior value. -/
theorem c9_frame (s : State) (field t v k : String) (h : k ≠ field) :
    (update_research_data s field t).1 k = s k ∧
      (set_state_value s field v).1 k = s k := by
  constructor <;> simp [update_research_data, set_state_value, h]

/-- C9 witness: a key distinct from the written field is untouched. -/
theorem c9_frame_witness :
    "y" ≠ "x" ∧
      ((update_research_data emptyState "x" "A").1 "y" = emptyState "y" ∧
        (set_state_value emptyState "x" "B").1 "y" = emptyState "y") :=
  ⟨by decide, c9_frame emptyState "x" "A" "B" "y" (by decide)⟩

theorem stripU_last (l : List Char) : (stripU l).getLast? ≠ some '_' := by
  rw [stripU, List.getLast?_reverse]
  intro hc
  have hnot := dropWhile_head_not _ _ _ hc
  simp at hnot

theorem loopRun_no_signal (m : Nat) :
    ∀ k iter, m - iter = k + 1 → iter < m →
      loopRun (fun _ => false) m iter = (m - iter, .Exhausted) := by
  intro k
  induction k with
  | zero =>
      intro iter hk _
      rw [loopRun]
      have hle : m ≤ iter + 1 := by omega
      simp [hle, hk]
  | succ k ih =>
      intro iter hk h
      rw [loopRun]
      have hlt : iter + 1 < m := by omega
      have hle : ¬ m ≤ iter + 1 := by omega
      simp only [Bool.false_eq_true, if_false, if_neg hle]
      rw [ih (iter + 1) (by omega) hlt]
      have : m - (iter + 1) + 1 = m - iter := by omega
      simp [this]

/-- C2: a loop whose body never raises the termination signal executes
its body exactly `max_iterations` times and then completes in the
`Exhausted` state; no further iteration starts. -/
theorem c2_loop_exhausts (m : Nat) (h : 0 < m) :
    loopRun (fun _ => false) m 0 = (m, .Exhausted) := by
  have hm : m - 0 = (m - 1) + 1 := by omega
  have := loopRun_no_signal m (m - 1) 0 hm h
  simpa using this

/-- C2 witness: `trial_loop` is built with `max_iterations = 3`; a body
that never signals runs exactly 3 times and the loop ends `Exhausted`. -/
theorem c2_loop_exhausts_witness :
    0 < maxIterOf trial_loop ∧
      loopRun (fun _ => false) (maxIterOf trial_loop) 0 =
        (maxIterOf trial_loop, .Exhausted) :=
  ⟨by decide, c2_loop_exhausts (maxIterOf trial_loop) (by decide)⟩

/-- C7: for every topic label, `write_verdict_file` derives the file
path `court_records/<name>.txt`, where `<name>` keeps only ASCII
alphanumerics and single underscores: every maximal run of
non-alphanumerics was collapsed to one `'_'`, no two underscores are
adjacent, and no underscore remains at either end. -/
theorem c7_clean_filename (topic : String) :
    verdictPath topic = "court_records" ++ "/" ++ (cleanName topic ++ ".txt") ∧
      (cleanName topic).data.all (fun c => c.isAlphanum || c == '_') = true ∧
      NoAdjU (cleanName topic).data ∧
      (cleanName topic).data.head? ≠ some '_' ∧
      (cleanName topic).data.getLast? ≠ some '_' := by
  refine ⟨rfl, ?_, ?_, ?_, ?_⟩
  · rw [List.all_eq_true]
    intro c hc
    have h1 : c ∈ collapseU (topic.data.map toSafeChar) := stripU_subset _ c hc
    have h2 : c ∈ topic.data.map toSafeChar := collapseU_subset _ c h1
    rcases List.mem_map.1 h2 with ⟨d, _, hd⟩
    rw [← hd, toSafeChar]
    by_cases ha : d.isAlphanum
    · simp [ha]
    · simp [ha]
  · exact stripU_chain _ (collapseU_chain _)
  · exact stripU_head _
  · exact stripU_last _

/-- C8: the constructed workflow tree — the root `SequentialAgent`
runs the inquiry step, then the `trial_loop` `LoopAgent` (whose body is
the `ParallelAgent` of the two researchers followed by the judge), then
the final verdict writer. -/
theorem c8_tree_shape :
    root_agent = .seqA "historical_court_system"
      [.leaf "inquiry_agent",
        .loopA "trial_loop" 3
          [.parA "investigation_team"
            [.leaf "admirer_agent", .leaf "critic_agent"],
            .leaf "judge_agent"],
        .leaf "verdict_writer"] := rfl

/-- C10: if `PROMPT` is absent, the label defaults to
`"unknown_subject"` and the derived path is
`court_records/unknown_subject.txt`; if `PROMPT` holds a list, the last
element of the list is the label. -/
theorem c10_label_resolution (s : State) (content : String) :
    (s "PROMPT" = none →
      write_verdict_file s content =
        some (s, ⟨"success", "court_records/unknown_subject.txt"⟩)) ∧
      (∀ (l : List String) (x : String),
        s "PROMPT" = some (.lst (l ++ [x])) → resolveTopic s = some x) := by
  constructor
  · intro h
    have hpath : verdictPath "unknown_subject" =
        "court_records/unknown_subject.txt" := by decide
    simp [write_verdict_file, resolveTopic, h, hpath]
  · intro l x h
    simp [resolveTopic, h]

/-- C10 witness: the empty store yields the default path, and a
list-valued `PROMPT` resolves to its last element. -/
theorem c10_label_resolution_witness :
    (emptyState "PROMPT" = none ∧
      write_verdict_file emptyState "body" =
        some (emptyState, ⟨"success", "court_records/unknown_subject.txt"⟩)) ∧
      ((fun k => if k = "PROMPT" then some (Val.lst ["a", "b"]) else none :
          State) "PROMPT" = some (.lst (["a"] ++ ["b"])) ∧
        resolveTopic
          (fun k => if k = "PROMPT" then some (Val.lst ["a", "b"]) else none) =
          some "b") :=
  ⟨⟨rfl, (c10_label_resolution emptyState "body").1 rfl⟩,
    ⟨by decide,
      (c10_label_resolution
        (fun k => if k = "PROMPT" then some (Val.lst ["a", "b"]) else none)
        "body").2 ["a"] "b" (by decide)⟩⟩

end HistoricalCourt
